import Mathlib

/-!
Shallow embedding of `imodels/tree/anova-figs.py` (the AFIGS additive tree
grower) and `imodels/tree/tao.py` (the TAO path optimizer), together with
theorems settling the specification's claims against the code.

Numpy arrays are modelled as lists of rationals (tensors are flattened in
C order), boolean masks as lists of booleans, and operations that can raise
return `Option` or an explicit result type.  The external stump fitter and
scorer (sklearn) are out of scope per the specification and appear as
function parameters.
-/

/-- Pointwise subtraction of flattened numpy tensors (`numpy -`). -/
def vecSub (a b : List ℚ) : List ℚ := List.zipWith (fun x y => x - y) a b

/-- Pointwise addition of flattened numpy tensors (`numpy +`). -/
def vecAdd (a b : List ℚ) : List ℚ := List.zipWith (fun x y => x + y) a b

/-- Sum of a list of flattened tensors starting from an all-zeros tensor of
width `n`, the shape `np.zeros` gives it. -/
def sumVecs (n : ℕ) (l : List (List ℚ)) : List ℚ := l.foldl vecAdd (List.replicate n 0)

/-- Option-valued map over a list, failing when any element fails; models a
numpy loop that can raise. -/
def omap {α β : Type} (f : α → Option β) : List α → Option (List β)
  | [] => some []
  | x :: xs =>
    match f x, omap f xs with
    | some y, some ys => some (y :: ys)
    | _, _ => none

theorem omap_length {α β : Type} (f : α → Option β) :
    ∀ (l : List α) (l' : List β), omap f l = some l' → l'.length = l.length := by
  intro l
  induction l with
  | nil =>
    intro l' h
    simp [omap] at h
    simp [← h]
  | cons x xs ih =>
    intro l' h
    simp only [omap] at h
    cases hx : f x with
    | none => rw [hx] at h; simp at h
    | some y =>
      rw [hx] at h
      cases hxs : omap f xs with
      | none => rw [hxs] at h; simp at h
      | some ys =>
        rw [hxs] at h
        simp at h
        subst h
        simp [ih ys hxs]

/-! ### Sample masks of split children (anova-figs.py, `_construct_node_with_stump`) -/

/-- The split predicate over all rows: `idxs_split = X[:, feature] <= threshold`
(anova-figs.py line 164). -/
def idxs_split (X : List (List ℚ)) (feature : ℕ) (threshold : ℚ) : List Bool :=
  X.map (fun row => decide (row.getD feature 0 ≤ threshold))

/-- Pointwise conjunction of two boolean masks (numpy `&`). -/
def maskAnd (a b : List Bool) : List Bool := List.zipWith (fun x y => x && y) a b

/-- Pointwise negation of a boolean mask (numpy `~`). -/
def maskNot (a : List Bool) : List Bool := a.map (fun x => !x)

/-- Pointwise disjunction of two boolean masks (numpy `|`). -/
def maskOr (a b : List Bool) : List Bool := List.zipWith (fun x y => x || y) a b

/-- Left-child mask: `idxs_left = idxs_split & idxs` (anova-figs.py line 165). -/
def idxs_left (X : List (List ℚ)) (feature : ℕ) (threshold : ℚ) (idxs : List Bool) : List Bool :=
  maskAnd (idxs_split X feature threshold) idxs

/-- Right-child mask: `idxs_right = ~idxs_split & idxs` (anova-figs.py line 166). -/
def idxs_right (X : List (List ℚ)) (feature : ℕ) (threshold : ℚ) (idxs : List Bool) : List Bool :=
  maskAnd (maskNot (idxs_split X feature threshold)) idxs

/-- The root candidate mask `np.ones(self.n, dtype=bool)` (anova-figs.py line 199). -/
def rootMask (n : ℕ) : List Bool := List.replicate n true

theorem mask_partition (s : List Bool) :
    ∀ idxs : List Bool, s.length = idxs.length →
      maskAnd (maskAnd s idxs) (maskAnd (maskNot s) idxs)
          = List.replicate idxs.length false
        ∧ maskOr (maskAnd s idxs) (maskAnd (maskNot s) idxs) = idxs := by
  induction s with
  | nil =>
    intro idxs h
    have : idxs = [] := by cases idxs <;> simp_all
    subst this
    simp [maskAnd, maskNot, maskOr]
  | cons a s ih =>
    intro idxs h
    cases idxs with
    | nil => simp at h
    | cons i t =>
      have h' : s.length = t.length := by simpa using h
      obtain ⟨h1, h2⟩ := ih t h'
      refine ⟨?_, ?_⟩
      · simp only [maskAnd, maskNot, maskOr, List.map_cons, List.zipWith_cons_cons,
          List.length_cons, List.replicate_succ, List.cons.injEq]
        exact ⟨by cases a <;> cases i <;> rfl, h1⟩
      · simp only [maskAnd, maskNot, maskOr, List.map_cons, List.zipWith_cons_cons,
          List.cons.injEq]
        exact ⟨by cases a <;> cases i <;> rfl, h2⟩

/-- C2: for every split node constructed by the grower (candidate or committed),
the left child's sample mask and the right child's mask are disjoint and their
union is the parent's mask, and the root candidate's mask is all rows. -/
theorem c2_sibling_masks_partition (X : List (List ℚ)) (feature : ℕ) (threshold : ℚ)
    (idxs : List Bool) (h : idxs.length = X.length) :
    maskAnd (idxs_left X feature threshold idxs) (idxs_right X feature threshold idxs)
        = List.replicate idxs.length false
      ∧ maskOr (idxs_left X feature threshold idxs) (idxs_right X feature threshold idxs) = idxs
      ∧ ∀ n i, i < n → (rootMask n).getD i false = true := by
  have hs : (idxs_split X feature threshold).length = idxs.length := by
    simp [idxs_split, h]
  obtain ⟨h1, h2⟩ := mask_partition (idxs_split X feature threshold) idxs hs
  refine ⟨h1, h2, ?_⟩
  intro n i hi
  simp [rootMask, List.getD_eq_getElem?_getD, List.getElem?_replicate, hi]

theorem c2_witness :
    maskAnd (idxs_left [[(0 : ℚ)], [1]] 0 0 [true, true])
        (idxs_right [[(0 : ℚ)], [1]] 0 0 [true, true])
        = List.replicate 2 false
      ∧ maskOr (idxs_left [[(0 : ℚ)], [1]] 0 0 [true, true])
          (idxs_right [[(0 : ℚ)], [1]] 0 0 [true, true]) = [true, true]
      ∧ ∀ n i, i < n → (rootMask n).getD i false = true :=
  c2_sibling_masks_partition [[(0 : ℚ)], [1]] 0 0 [true, true] (by decide)

/-! ### Residual targets per tree (anova-figs.py, `fit` lines 258-266) -/

/-- Output-dimension sharing between two trees:
`len(set(tree_id).intersection(set(tree_id_other))) > 0` (line 265). -/
def sharesDim (a b : List ℕ) : Bool := a.any (fun d => b.contains d)

/-- The guard of the residual subtraction loop (lines 263-265): the other tree
is distinct and shares at least one output dimension. -/
def interferes (ids : List (List ℕ)) (t o : ℕ) : Bool :=
  (!(o == t)) && sharesDim (ids.getD t []) (ids.getD o [])

/-- Residual target of tree `t` (lines 260-266): start from a copy of the
one-hot tensor and subtract the prediction of every other tree that shares an
output dimension with `t`. -/
def computeResidual (yOnehot : List ℚ) (ids : List (List ℕ)) (preds : List (List ℚ))
    (t : ℕ) : List ℚ :=
  (List.range ids.length).foldl
    (fun acc o => if interferes ids t o then vecSub acc (preds.getD o []) else acc) yOnehot

/-- The list of predictions that the residual loop subtracts for tree `t`. -/
def residualSubtrahends (ids : List (List ℕ)) (preds : List (List ℚ)) (t : ℕ) :
    List (List ℚ) :=
  ((List.range ids.length).filter (fun o => interferes ids t o)).map (fun o => preds.getD o [])

theorem vecSub_replicate_zero : ∀ a : List ℚ, vecSub a (List.replicate a.length 0) = a := by
  intro a
  induction a with
  | nil => rfl
  | cons x xs ih => simp [vecSub, List.replicate_succ] at ih ⊢; exact ih

theorem vecAdd_replicate_zero : ∀ a : List ℚ, vecAdd (List.replicate a.length 0) a = a := by
  intro a
  induction a with
  | nil => rfl
  | cons x xs ih => simp [vecAdd, List.replicate_succ] at ih ⊢; exact ih

theorem vecAdd_replicate_zero_right : ∀ a : List ℚ, vecAdd a (List.replicate a.length 0) = a := by
  intro a
  induction a with
  | nil => rfl
  | cons x xs ih => simp [vecAdd, List.replicate_succ] at ih ⊢; exact ih

theorem vecSub_vecSub : ∀ a b c : List ℚ, vecSub (vecSub a b) c = vecSub a (vecAdd b c) := by
  intro a
  induction a with
  | nil => intro b c; rfl
  | cons x xs ih =>
    intro b c
    cases b with
    | nil => rfl
    | cons y ys =>
      cases c with
      | nil => rfl
      | cons z zs =>
        simp only [vecSub, vecAdd, List.zipWith_cons_cons]
        refine congrArg₂ _ (by ring) ?_
        exact ih ys zs

theorem vecAdd_assoc : ∀ a b c : List ℚ, vecAdd (vecAdd a b) c = vecAdd a (vecAdd b c) := by
  intro a
  induction a with
  | nil => intro b c; rfl
  | cons x xs ih =>
    intro b c
    cases b with
    | nil => rfl
    | cons y ys =>
      cases c with
      | nil => rfl
      | cons z zs =>
        simp only [vecAdd, List.zipWith_cons_cons]
        refine congrArg₂ _ (by ring) ?_
        exact ih ys zs

theorem foldl_vecAdd_pull : ∀ (l : List (List ℚ)) (v z : List ℚ),
    l.foldl vecAdd (vecAdd v z) = vecAdd v (l.foldl vecAdd z) := by
  intro l
  induction l with
  | nil => intro v z; rfl
  | cons w ws ih =>
    intro v z
    show ws.foldl vecAdd (vecAdd (vecAdd v z) w) = vecAdd v (ws.foldl vecAdd (vecAdd z w))
    rw [vecAdd_assoc, ih]

theorem foldl_vecSub_eq (n : ℕ) : ∀ (l : List (List ℚ)) (a : List ℚ),
    a.length = n → (∀ v ∈ l, v.length = n) →
    l.foldl vecSub a = vecSub a (sumVecs n l) := by
  intro l
  induction l with
  | nil =>
    intro a ha _
    show a = vecSub a (List.replicate n 0)
    rw [← ha, vecSub_replicate_zero]
  | cons v vs ih =>
    intro a ha hv
    have hvn : v.length = n := hv v (List.mem_cons_self v vs)
    have hsub : (vecSub a v).length = n := by
      simp [vecSub, List.length_zipWith, ha, hvn]
    have step : (v :: vs).foldl vecSub a = vs.foldl vecSub (vecSub a v) := rfl
    rw [step, ih (vecSub a v) hsub (fun w hw => hv w (List.mem_cons_of_mem v hw)),
      vecSub_vecSub]
    have h0 : vecAdd (List.replicate n 0) v = v := by
      rw [← hvn]; exact vecAdd_replicate_zero v
    have h1 : vecAdd v (List.replicate n 0) = v := by
      rw [← hvn]; exact vecAdd_replicate_zero_right v
    have hsum : sumVecs n (v :: vs) = vecAdd v (sumVecs n vs) := by
      show vs.foldl vecAdd (vecAdd (List.replicate n 0) v)
          = vecAdd v (vs.foldl vecAdd (List.replicate n 0))
      rw [h0]
      calc vs.foldl vecAdd v
          = vs.foldl vecAdd (vecAdd v (List.replicate n 0)) := by rw [h1]
        _ = vecAdd v (vs.foldl vecAdd (List.replicate n 0)) := foldl_vecAdd_pull vs v _
    rw [hsum]

theorem foldl_filter_vecSub (c : ℕ → Bool) (g : ℕ → List ℚ) :
    ∀ (L : List ℕ) (a : List ℚ),
      L.foldl (fun acc o => if c o then vecSub acc (g o) else acc) a
        = ((L.filter c).map g).foldl vecSub a := by
  intro L
  induction L with
  | nil => intro a; rfl
  | cons x xs ih =>
    intro a
    cases hx : c x with
    | true =>
      have hl : (x :: xs).foldl (fun acc o => if c o then vecSub acc (g o) else acc) a
          = xs.foldl (fun acc o => if c o then vecSub acc (g o) else acc) (vecSub a (g x)) := by
        show xs.foldl _ (if c x then vecSub a (g x) else a) = _
        simp [hx]
      have hr : (x :: xs).filter c = x :: xs.filter c := by
        simp [List.filter_cons, hx]
      rw [hl, hr, List.map_cons, ih]
      rfl
    | false =>
      have hl : (x :: xs).foldl (fun acc o => if c o then vecSub acc (g o) else acc) a
          = xs.foldl (fun acc o => if c o then vecSub acc (g o) else acc) a := by
        show xs.foldl _ (if c x then vecSub a (g x) else a) = _
        simp [hx]
      have hr : (x :: xs).filter c = xs.filter c := by
        simp [List.filter_cons, hx]
      rw [hl, hr, ih]

theorem foldl_if_sub_ext (c : ℕ → Bool) (g g' : ℕ → List ℚ) :
    ∀ (L : List ℕ) (a : List ℚ), (∀ o ∈ L, c o = true → g o = g' o) →
      L.foldl (fun acc o => if c o then vecSub acc (g o) else acc) a
        = L.foldl (fun acc o => if c o then vecSub acc (g' o) else acc) a := by
  intro L
  induction L with
  | nil => intro a _; rfl
  | cons x xs ih =>
    intro a hext
    by_cases hx : c x = true
    · simp only [List.foldl_cons, hx, if_pos]
      rw [hext x (List.mem_cons_self x xs) hx]
      exact ih _ (fun o ho hc => hext o (List.mem_cons_of_mem x ho) hc)
    · simp only [List.foldl_cons, hx, Bool.false_eq_true, if_false]
      exact ih _ (fun o ho hc => hext o (List.mem_cons_of_mem x ho) hc)

theorem getD_set_ne {α : Type} (l : List α) (i j : ℕ) (v d : α) (h : i ≠ j) :
    (l.set i v).getD j d = l.getD j d := by
  simp [List.getD_eq_getElem?_getD, List.getElem?_set_ne h]

/-- C1: after every commit the residual target of tree `t` equals the one-hot
target minus the sum of the predictions of exactly the other trees whose
output-dimension subset intersects `t`'s subset, and replacing the prediction
of any tree whose subset is disjoint from `t`'s never alters `t`'s residual. -/
theorem c1_residual_targets (yOnehot : List ℚ) (ids : List (List ℕ))
    (preds : List (List ℚ)) (t : ℕ)
    (h1 : ∀ p ∈ preds, p.length = yOnehot.length) (h2 : preds.length = ids.length) :
    computeResidual yOnehot ids preds t
        = vecSub yOnehot (sumVecs yOnehot.length (residualSubtrahends ids preds t))
      ∧ ∀ o p', sharesDim (ids.getD t []) (ids.getD o []) = false →
          computeResidual yOnehot ids (preds.set o p') t
            = computeResidual yOnehot ids preds t := by
  constructor
  · rw [computeResidual, foldl_filter_vecSub]
    refine foldl_vecSub_eq yOnehot.length _ yOnehot rfl ?_
    intro v hv
    simp only [residualSubtrahends, List.mem_map, List.mem_filter, List.mem_range] at hv
    obtain ⟨o, ⟨ho, _⟩, rfl⟩ := hv
    have hlt : o < preds.length := by omega
    rw [List.getD_eq_getElem?_getD, List.getElem?_eq_getElem hlt]
    exact h1 _ (List.getElem_mem hlt)
  · intro o p' hdisj
    refine foldl_if_sub_ext (interferes ids t) _ _ (List.range ids.length) yOnehot ?_
    intro o' _ hc
    by_cases heq : o' = o
    · subst heq
      exfalso
      simp only [interferes, Bool.and_eq_true] at hc
      rw [hdisj] at hc
      simp at hc
    · exact getD_set_ne preds o o' p' [] (fun h => heq h.symm)

theorem c1_witness :
    computeResidual [1, 0] [[0], [0, 1]] [[2, 3], [4, 5]] 0
        = vecSub [1, 0] (sumVecs 2 (residualSubtrahends [[0], [0, 1]] [[2, 3], [4, 5]] 0))
      ∧ computeResidual [1, 0] [[0], [2]] ([[2, 3], [4, 5]].set 1 [9, 9]) 0
        = computeResidual [1, 0] [[0], [2]] [[2, 3], [4, 5]] 0 :=
  ⟨(c1_residual_targets [1, 0] [[0], [0, 1]] [[2, 3], [4, 5]] 0
      (by decide) (by decide)).1,
   (c1_residual_targets [1, 0] [[0], [2]] [[2, 3], [4, 5]] 0
      (by decide) (by decide)).2 1 [9, 9] (by decide)⟩

/-! ### The greedy fit loop (anova-figs.py, `fit` lines 199-306) -/

/-- A pool entry, projected to the only field the fit loop's control flow
reads: `impurity_reduction`, which is `None` when the fitted stump found no
real split. -/
structure PoolNode where
  impurity_reduction : Option ℚ
deriving DecidableEq

/-- Outcome of the fit loop: normal termination with the final `complexity_`,
the `TypeError` Python raises when `None` is compared with a float, or fuel
exhaustion of the model. -/
inductive FitResult where
  | ok (complexity : ℕ)
  | typeError
  | fuelOut
deriving DecidableEq

/-- The `impurity_reduction` computed by `_construct_node_with_stump`
(lines 144-156): `none` when the fitted stump has a single node, otherwise
the weighted impurity decrease times the node's sample count. -/
def stumpImpurityReduction (featureArr : List ℤ) (impurity : List ℚ)
    (nNodeSamples : List ℕ) (numIdxs : ℕ) : Option ℚ :=
  if featureArr.length = 1 then none
  else some ((impurity.getD 0 0
      - impurity.getD 1 0 * (nNodeSamples.getD 1 0 : ℚ) / (nNodeSamples.getD 0 0 : ℚ)
      - impurity.getD 2 0 * (nNodeSamples.getD 2 0 : ℚ) / (nNodeSamples.getD 0 0 : ℚ))
      * (numIdxs : ℚ))

/-- The greedy while-loop of `fit` (lines 211-305).  The pool is kept sorted
ascending, so `pop()` takes the last element; the body that commits the split,
recomputes predictions, residuals, and the re-fit pool (lines 220-300) is the
parameter `update`, which receives the popped node and the rest of the pool
and returns the next sorted pool.  Comparing a `None` impurity reduction with
`min_impurity_decrease` raises a `TypeError` (line 216). -/
def fitLoop (update : PoolNode → List PoolNode → List PoolNode) (minImp : ℚ)
    (maxRules : Option ℕ) : ℕ → List PoolNode → ℕ → FitResult
  | _, [], c => FitResult.ok c
  | 0, _ :: _, _ => FitResult.fuelOut
  | fuel + 1, p :: ps, c =>
    match ((p :: ps).getLast (List.cons_ne_nil p ps)).impurity_reduction with
    | none => FitResult.typeError
    | some imp =>
      if imp < minImp then FitResult.ok c
      else
        match maxRules with
        | some m =>
          if m ≤ c + 1 then FitResult.ok (c + 1)
          else fitLoop update minImp maxRules fuel
            (update ((p :: ps).getLast (List.cons_ne_nil p ps)) (p :: ps).dropLast) (c + 1)
        | none => fitLoop update minImp maxRules fuel
            (update ((p :: ps).getLast (List.cons_ne_nil p ps)) (p :: ps).dropLast) (c + 1)

theorem fitLoop_complexity_inv (update : PoolNode → List PoolNode → List PoolNode)
    (minImp : ℚ) (m : ℕ) :
    ∀ (fuel : ℕ) (pool : List PoolNode) (c cfin : ℕ), c < m →
      fitLoop update minImp (some m) fuel pool c = FitResult.ok cfin → cfin ≤ m := by
  intro fuel
  induction fuel with
  | zero =>
    intro pool c cfin hc h
    cases pool with
    | nil =>
      simp only [fitLoop, FitResult.ok.injEq] at h
      omega
    | cons p ps => simp [fitLoop] at h
  | succ fuel ih =>
    intro pool c cfin hc h
    cases pool with
    | nil =>
      simp only [fitLoop, FitResult.ok.injEq] at h
      omega
    | cons p ps =>
      rw [fitLoop] at h
      split at h
      · simp at h
      · split at h
        · simp only [FitResult.ok.injEq] at h
          omega
        · split at h
          · simp only [FitResult.ok.injEq] at h
            omega
          · exact ih _ (c + 1) cfin (by omega) h

/-- C3 (amended): whenever `maxRules ≥ 1`, every normally-terminating run of
the fit loop commits at most `maxRules` splits, so the final `complexity_`
never exceeds `maxRules`.  (With `maxRules = 0` one split is still committed
before the cap is checked; see the counterexample.) -/
theorem c3_complexity_le_maxRules (update : PoolNode → List PoolNode → List PoolNode)
    (minImp : ℚ) (m fuel : ℕ) (pool : List PoolNode) (cfin : ℕ) (hm : 1 ≤ m)
    (hrun : fitLoop update minImp (some m) fuel pool 0 = FitResult.ok cfin) :
    cfin ≤ m :=
  fitLoop_complexity_inv update minImp m fuel pool 0 cfin (by omega) hrun

theorem c3_witness :
    fitLoop (fun _ _ => []) 0 (some 1) 2 [PoolNode.mk (some 1)] 0 = FitResult.ok 1
      ∧ 1 ≤ 1 :=
  ⟨by decide,
   c3_complexity_le_maxRules (fun _ _ => []) 0 1 2 [PoolNode.mk (some 1)] 1
     (by decide) (by decide)⟩

/-- C3 counterexample: with `maxRules = 0` the loop still commits the first
selected split before checking the cap, so `complexity_` reaches 1 > 0.  The
claim "at most maxRules split commits are performed" fails at `maxRules = 0`. -/
theorem c3_counterexample :
    fitLoop (fun _ _ => []) 0 (some 0) 2 [PoolNode.mk (some 1)] 0 = FitResult.ok 1
      ∧ ¬ (1 ≤ 0) := by
  decide

/-! ### Handling of candidates with no viable split (C8) -/

/-- Sort key used for the potential-splits pool (`sorted(..., key=lambda x:
x.impurity_reduction)`, lines 207 and 300); in the re-fit path all entries are
`some` by the time the pool is sorted. -/
def poolKey (nd : PoolNode) : ℚ := nd.impurity_reduction.getD 0

/-- Insert a node into a pool sorted ascending by `poolKey`. -/
def insertSorted (nd : PoolNode) : List PoolNode → List PoolNode
  | [] => [nd]
  | m :: ms => if poolKey nd ≤ poolKey m then nd :: m :: ms else m :: insertSorted nd ms

/-- Stable ascending sort of the pool by impurity reduction. -/
def sortPool (l : List PoolNode) : List PoolNode := l.foldr insertSorted []

/-- The re-fit step over the surviving pool (lines 269-300): every entry is
re-fit on the new residuals (`refit`), entries whose new `impurity_reduction`
is `None` are dropped, and the rest are re-sorted ascending. -/
def refitPool (refit : PoolNode → PoolNode) (pool : List PoolNode) : List PoolNode :=
  sortPool ((pool.map refit).filter (fun nd => nd.impurity_reduction.isSome))

theorem mem_insertSorted (nd x : PoolNode) :
    ∀ l : List PoolNode, x ∈ insertSorted nd l → x = nd ∨ x ∈ l := by
  intro l
  induction l with
  | nil => intro h; simp [insertSorted] at h; exact Or.inl h
  | cons m ms ih =>
    intro h
    rw [insertSorted] at h
    by_cases hle : poolKey nd ≤ poolKey m
    · rw [if_pos hle] at h
      rcases List.mem_cons.mp h with h1 | h2
      · exact Or.inl h1
      · exact Or.inr h2
    · rw [if_neg hle] at h
      rcases List.mem_cons.mp h with h1 | h2
      · exact Or.inr (List.mem_cons.mpr (Or.inl h1))
      · rcases ih h2 with h3 | h4
        · exact Or.inl h3
        · exact Or.inr (List.mem_cons.mpr (Or.inr h4))

theorem mem_sortPool (x : PoolNode) : ∀ l : List PoolNode, x ∈ sortPool l → x ∈ l := by
  intro l
  induction l with
  | nil => intro h; simp [sortPool] at h
  | cons m ms ih =>
    intro h
    have : x ∈ insertSorted m (sortPool ms) := h
    rcases mem_insertSorted m x (sortPool ms) this with h1 | h2
    · subst h1; exact List.mem_cons_self x ms
    · exact List.mem_cons_of_mem m (ih h2)

/-- C8 (amended): a candidate whose re-fit finds no viable split (undefined
`impurity_reduction`) is dropped from the pool by the re-fit step and never
re-enters it as a splittable candidate; but an initial per-tree root candidate
with undefined `impurity_reduction` is not handled as a leaf: the fit loop
raises a `TypeError` when it compares that `None` with `min_impurity_decrease`. -/
theorem c8_refit_drops_undefined (refit : PoolNode → PoolNode) (pool : List PoolNode)
    (nd : PoolNode) (h : nd ∈ refitPool refit pool) :
    nd.impurity_reduction.isSome = true
      ∧ fitLoop (fun _ _ => []) 0 (some 12) 3 [PoolNode.mk none] 0 = FitResult.typeError := by
  constructor
  · have h1 : nd ∈ (pool.map refit).filter (fun nd => nd.impurity_reduction.isSome) :=
      mem_sortPool nd _ h
    exact (List.mem_filter.mp h1).2
  · decide

theorem c8_witness :
    (PoolNode.mk (some 1)).impurity_reduction.isSome = true
      ∧ fitLoop (fun _ _ => []) 0 (some 12) 3 [PoolNode.mk none] 0 = FitResult.typeError :=
  c8_refit_drops_undefined (fun nd => nd) [PoolNode.mk (some 1)] (PoolNode.mk (some 1))
    (by decide)

/-- C8 counterexample: a stump fit that returns a single node (feature array
`[-2]`) yields an undefined impurity reduction (lines 144-149), and a pool
whose selected entry carries that undefined value makes the fit loop raise a
`TypeError` instead of treating the node as a leaf and continuing. -/
theorem c8_counterexample :
    stumpImpurityReduction [-2] [0] [2] 2 = none
      ∧ fitLoop (fun _ _ => [])
          0 (some 12) 3 [PoolNode.mk (stumpImpurityReduction [-2] [0] [2] 2)] 0
          = FitResult.typeError := by
  decide

/-! ### Prediction (anova-figs.py, `_predict_tree`, `predict`, `predict_proba`) -/

/-- A committed tree node as used by prediction: `feature`, `threshold`, the
per-class value tensor (flattened in C order), and optional children. -/
inductive PNode where
  | mk (feature : ℕ) (threshold : ℚ) (value : List ℚ) (left : Option PNode)
      (right : Option PNode)

/-- Descend the tree for one sample (`_predict_tree_single_point`,
lines 312-325): a node with no children returns its value; otherwise go left
iff `x[feature] <= threshold`, returning the node's own value when the chosen
child is absent. -/
def predictSingle (x : List ℚ) : PNode → List ℚ
  | PNode.mk _ _ v none none => v
  | PNode.mk f t v l r =>
    if x.getD f 0 ≤ t then
      match l with
      | none => v
      | some ln => predictSingle x ln
    else
      match r with
      | none => v
      | some rn => predictSingle x rn

/-- Per-row predictions of one tree (`_predict_tree`, lines 328-331): one value
tensor per row of `X`. -/
def predictTree (root : PNode) (X : List (List ℚ)) : List (List ℚ) :=
  X.map (fun x => predictSingle x root)

/-- The prediction task of the estimator; `AFIGS.__init__` hard-codes
classification but the dispatch in `predict`/`predict_proba` branches on it. -/
inductive PredictionTask where
  | classification
  | regression
deriving DecidableEq

/-- Outcome of a numpy-backed method: a raised `ValueError`, the
`NotImplemented` sentinel returned as a normal value, or a result. -/
inductive NpResult (α : Type) where
  | valueError : NpResult α
  | notImplementedValue : NpResult α
  | ok : α → NpResult α
deriving DecidableEq

/-- The fitted state of an AFIGS model that prediction reads: the training row
count `self.n`, `self.y_levels`, the task, and the committed tree roots
(`self.trees_`, `None` for trees never started). -/
structure AFIGSModel where
  n : ℕ
  y_levels : List ℕ
  prediction_task : PredictionTask
  trees_ : List (Option PNode)

/-- Product of the per-column cardinalities: the flattened width of the
one-hot tensor. -/
def prodLevels (ls : List ℕ) : ℕ := ls.foldl (fun a b => a * b) 1

/-- In-place numpy addition of one row tensor onto another: shapes must
agree. -/
def addRow (a b : List ℚ) : Option (List ℚ) :=
  if b.length = a.length then some (vecAdd a b) else none

/-- In-place numpy addition `preds += tree_preds` over the leading (row) axis,
with numpy's broadcast rule for that axis: the added array must have the same
row count or a single row. -/
def addRows (a b : List (List ℚ)) : Option (List (List ℚ)) :=
  if b.length = a.length then omap (fun p => addRow p.1 p.2) (List.zip a b)
  else if b.length = 1 then omap (fun r => addRow r (b.getD 0 [])) a
  else none

/-- The all-zeros accumulator `np.zeros([self.n] + self.y_levels)`
(lines 335 and 352), flattened per row. -/
def zerosPreds (m : AFIGSModel) : List (List ℚ) :=
  List.replicate m.n (List.replicate (prodLevels m.y_levels) 0)

/-- The summation loop over `self.trees_` (lines 336-338 and 353-355): absent
trees contribute nothing, committed trees are predicted on `X` and added. -/
def accumulatePreds (X : List (List ℚ)) (trees : List (Option PNode))
    (init : List (List ℚ)) : Option (List (List ℚ)) :=
  trees.foldl
    (fun acc t? =>
      match acc, t? with
      | some preds, some root => addRows preds (predictTree root X)
      | some preds, none => some preds
      | none, _ => none)
    (some init)

/-- Index of the first maximal entry of a row (`np.where(row == np.max(row))`
followed by taking each coordinate array's first element); `none` on an empty
row, where `np.max` raises. -/
def argFirstMax : List ℚ → Option ℕ
  | [] => none
  | x :: xs => some (List.findIdx (fun v => v == xs.foldl max x) (x :: xs))

/-- Unravel a C-order flat index into a multi-index over `levels`. -/
def unravel (levels : List ℕ) (j : ℕ) : List ℕ :=
  match levels with
  | [] => []
  | l :: ls => (j / prodLevels ls) % l :: unravel ls (j % prodLevels ls)

/-- `AFIGS.predict` (lines 333-346): validate `X`, sum the tree predictions
into an `n`-row accumulator, then either return the `NotImplemented` sentinel
(regression) or the per-row multi-index of the first maximal entry. -/
def afigsPredict (m : AFIGSModel) (X : List (List ℚ)) : NpResult (List (List ℕ)) :=
  if X.isEmpty then NpResult.valueError
  else
    match accumulatePreds X m.trees_ (zerosPreds m) with
    | none => NpResult.valueError
    | some preds =>
      if m.prediction_task = PredictionTask.regression then NpResult.notImplementedValue
      else
        match omap argFirstMax preds with
        | none => NpResult.valueError
        | some flat => NpResult.ok (flat.map (unravel m.y_levels))

/-- `AFIGS.predict_proba` (lines 348-357): validate `X`, return the
`NotImplemented` sentinel for regression, else the raw summed `n`-row tensor. -/
def afigsPredictProba (m : AFIGSModel) (X : List (List ℚ)) : NpResult (List (List ℚ)) :=
  if X.isEmpty then NpResult.valueError
  else if m.prediction_task = PredictionTask.regression then NpResult.notImplementedValue
  else
    match accumulatePreds X m.trees_ (zerosPreds m) with
    | none => NpResult.valueError
    | some preds => NpResult.ok preds

theorem addRow_length (a b c : List ℚ) (h : addRow a b = some c) : c.length = a.length := by
  rw [addRow] at h
  by_cases hb : b.length = a.length
  · rw [if_pos hb] at h
    simp only [Option.some.injEq] at h
    subst h
    simp [vecAdd, List.length_zipWith, hb]
  · rw [if_neg hb] at h
    simp at h

theorem omap_addRow_zip_length (a b : List (List ℚ)) (c : List (List ℚ))
    (h : omap (fun p => addRow p.1 p.2) (List.zip a b) = some c)
    (hb : b.length = a.length) : c.length = a.length := by
  have := omap_length (fun p : List ℚ × List ℚ => addRow p.1 p.2) (List.zip a b) c h
  simp [List.length_zip, hb] at this
  omega

theorem addRows_length (a b c : List (List ℚ)) (h : addRows a b = some c) :
    c.length = a.length := by
  rw [addRows] at h
  by_cases hb : b.length = a.length
  · rw [if_pos hb] at h
    exact omap_addRow_zip_length a b c h hb
  · rw [if_neg hb] at h
    by_cases hb1 : b.length = 1
    · rw [if_pos hb1] at h
      exact omap_length _ a c h
    · rw [if_neg hb1] at h
      simp at h

theorem accumulatePreds_from_none (X : List (List ℚ)) :
    ∀ trees : List (Option PNode),
      trees.foldl
        (fun acc t? =>
          match acc, t? with
          | some preds, some root => addRows preds (predictTree root X)
          | some preds, none => some preds
          | none, _ => none)
        none = none := by
  intro trees
  induction trees with
  | nil => rfl
  | cons u us ihu =>
    cases u with
    | none => exact ihu
    | some r => exact ihu

theorem accumulatePreds_length (X : List (List ℚ)) :
    ∀ (trees : List (Option PNode)) (init preds : List (List ℚ)),
      accumulatePreds X trees init = some preds → preds.length = init.length := by
  intro trees
  induction trees with
  | nil =>
    intro init preds h
    simp only [accumulatePreds, List.foldl_nil, Option.some.injEq] at h
    simp [h]
  | cons t? rest ih =>
    intro init preds h
    cases t? with
    | none => exact ih init preds h
    | some root =>
      have hstep : accumulatePreds X (some root :: rest) init
          = rest.foldl
              (fun acc t? =>
                match acc, t? with
                | some preds, some root => addRows preds (predictTree root X)
                | some preds, none => some preds
                | none, _ => none)
              (addRows init (predictTree root X)) := rfl
      rw [hstep] at h
      cases hadd : addRows init (predictTree root X) with
      | none =>
        rw [hadd, accumulatePreds_from_none X rest] at h
        simp at h
      | some mid =>
        rw [hadd] at h
        have h1 := ih mid preds h
        rw [h1]
        exact addRows_length init (predictTree root X) mid hadd

/-- C10: whenever `predict` or `predict_proba` of a fitted AFIGS model returns
successfully, the returned array's leading dimension equals the training row
count `self.n` recorded at fit time, regardless of the row count of the
argument `X`. -/
theorem c10_output_rows (m : AFIGSModel) (X : List (List ℚ)) :
    (∀ res, afigsPredict m X = NpResult.ok res → res.length = m.n)
      ∧ ∀ res, afigsPredictProba m X = NpResult.ok res → res.length = m.n := by
  have hz : (zerosPreds m).length = m.n := by simp [zerosPreds]
  constructor
  · intro res h
    rw [afigsPredict] at h
    split at h
    · simp at h
    · split at h
      · simp at h
      · rename_i preds hacc
        split at h
        · simp at h
        · split at h
          · simp at h
          · rename_i flat hflat
            simp only [NpResult.ok.injEq] at h
            subst h
            rw [List.length_map]
            rw [omap_length argFirstMax preds flat hflat]
            rw [accumulatePreds_length X m.trees_ (zerosPreds m) preds hacc, hz]
  · intro res h
    rw [afigsPredictProba] at h
    split at h
    · simp at h
    · split at h
      · simp at h
      · split at h
        · simp at h
        · rename_i preds hacc
          simp only [NpResult.ok.injEq] at h
          subst h
          rw [accumulatePreds_length X m.trees_ (zerosPreds m) preds hacc, hz]

/-- A small fitted classification model: 1 training row, one binary output,
no committed trees yet (`self.trees_ = [None]`), which is the state after a
fit that committed nothing. -/
def afigsModelW : AFIGSModel :=
  { n := 1
    y_levels := [2]
    prediction_task := PredictionTask.classification
    trees_ := [none] }

theorem c10_witness :
    List.length [[(0 : ℕ)]] = afigsModelW.n ∧ List.length [[(0 : ℚ), 0]] = afigsModelW.n :=
  ⟨(c10_output_rows afigsModelW [[0]]).1 [[0]] (by decide),
   (c10_output_rows afigsModelW [[0]]).2 [[0, 0]] (by decide)⟩

/-- The same fitted state with the task forced to regression. -/
def afigsModelReg : AFIGSModel :=
  { n := 1
    y_levels := [2]
    prediction_task := PredictionTask.regression
    trees_ := [none] }

/-- C6 evidence: with the regression task, `predict` and `predict_proba`
return the `NotImplemented` sentinel as an ordinary value (lines 339-340 and
350-351); no error is raised, contradicting the claim (and the specification's
fail-fast requirement). -/
theorem c6_regression_returns_sentinel :
    afigsPredict afigsModelReg [[0]] = NpResult.notImplementedValue
      ∧ afigsPredictProba afigsModelReg [[0]] = NpResult.notImplementedValue := by
  decide

/-! ### Input handling of `fit` / `_init_y` (anova-figs.py lines 80-88, 174-193) -/

/-- Per-column maximum of the integer-coded targets, `np.max(y, axis=0)`
(line 81); callers pass a nonempty `y`. -/
def colMax (y : List (List ℤ)) (j : ℕ) : ℤ :=
  match y with
  | [] => 0
  | r :: rs => rs.foldl (fun m row => max m (row.getD j 0)) (r.getD j 0)

/-- The inferred per-column cardinalities
`self.y_levels = list(np.max(y, axis=0).astype(int) + 1)` (line 81). -/
def yLevelsOf (y : List (List ℤ)) : List ℤ :=
  (List.range (y.headD []).length).map (fun j => colMax y j + 1)

/-- Numpy integer indexing into one axis of extent `L`: valid for
`-L ≤ e < L`, a negative `e` silently wrapping to `L + e`; anything else
raises `IndexError`. -/
def npIndex (L e : ℤ) : Option ℕ :=
  if 0 ≤ e ∧ e < L then some e.toNat
  else if -L ≤ e ∧ e < 0 then some (L + e).toNat
  else none

/-- Effective multi-index at which `y_onehot[tuple(y_onehot_idx[i, :])] = 1`
writes for one sample (lines 86-88). -/
def rowIndices (Ls row : List ℤ) : Option (List ℕ) :=
  omap (fun p => npIndex p.1 p.2) (List.zip Ls row)

/-- The one-hot encoding step of `_init_y` (lines 80-88): infer the levels,
allocate `np.zeros([n] + self.y_levels)` (a negative dimension raises
`ValueError`), then write one `1` per sample at its (possibly wrapped) code
tuple, raising `IndexError` when a code is outside numpy's index range.
Returns each sample's effective index tuple.  No validation precedes this:
`check_X_y` is commented out in `fit` (line 183). -/
inductive InitYResult where
  | raised : InitYResult
  | ok : List (List ℕ) → InitYResult
deriving DecidableEq

def onehotIndices (y : List (List ℤ)) : InitYResult :=
  if (yLevelsOf y).any (fun L => decide (L < 0)) then InitYResult.raised
  else
    match omap (rowIndices (yLevelsOf y)) y with
    | none => InitYResult.raised
    | some res => InitYResult.ok res

theorem omap_eq_map {α β : Type} (f : α → Option β) (g : α → β) :
    ∀ l : List α, (∀ x ∈ l, f x = some (g x)) → omap f l = some (l.map g) := by
  intro l
  induction l with
  | nil => intro _; rfl
  | cons x xs ih =>
    intro h
    show (match f x, omap f xs with
      | some y, some ys => some (y :: ys)
      | _, _ => none) = some ((x :: xs).map g)
    rw [h x (List.mem_cons_self x xs), ih (fun z hz => h z (List.mem_cons_of_mem x hz))]
    rfl

theorem foldl_max_le_start (j : ℕ) :
    ∀ (rs : List (List ℤ)) (m : ℤ), m ≤ rs.foldl (fun acc row => max acc (row.getD j 0)) m := by
  intro rs
  induction rs with
  | nil => intro m; exact le_refl m
  | cons r rs ih =>
    intro m
    exact le_trans (le_max_left m (r.getD j 0)) (ih (max m (r.getD j 0)))

theorem foldl_max_mem (j : ℕ) :
    ∀ (rs : List (List ℤ)) (m : ℤ) (r : List ℤ), r ∈ rs →
      r.getD j 0 ≤ rs.foldl (fun acc row => max acc (row.getD j 0)) m := by
  intro rs
  induction rs with
  | nil => intro m r h; simp at h
  | cons s ss ih =>
    intro m r h
    rcases List.mem_cons.mp h with h1 | h2
    · subst h1
      exact le_trans (le_max_right m (r.getD j 0)) (foldl_max_le_start j ss _)
    · exact ih _ r h2

theorem entry_le_colMax (r0 : List ℤ) (rs : List (List ℤ)) (j : ℕ) :
    ∀ r ∈ r0 :: rs, r.getD j 0 ≤ colMax (r0 :: rs) j := by
  intro r h
  rcases List.mem_cons.mp h with h1 | h2
  · subst h1; exact foldl_max_le_start j rs _
  · exact foldl_max_mem j rs _ r h2

theorem npIndex_emod (L e : ℤ) (h2 : -L ≤ e) (h3 : e < L) :
    npIndex L e = some ((e % L).toNat) := by
  rw [npIndex]
  by_cases h0 : 0 ≤ e
  · rw [if_pos ⟨h0, h3⟩, Int.emod_eq_of_lt h0 h3]
  · push_neg at h0
    rw [if_neg (fun hc => absurd hc.1 (not_le.mpr h0)), if_pos ⟨h2, h0⟩]
    have h4 : (e + L) % L = e % L := by
      have h5 := Int.add_mul_emod_self_left e L 1
      rw [mul_one] at h5
      exact h5
    have h6 : (e + L) % L = e + L := Int.emod_eq_of_lt (by omega) (by omega)
    rw [← h4, h6, Int.add_comm L e]

/-- C7 (amended): `fit` performs no input validation before one-hot encoding;
an integer code `e` with `-L ≤ e < 0` in a column of inferred cardinality
`L = max + 1` does not raise: it is silently encoded at class `L + e = e mod L`
(numpy negative indexing), and the encoding step succeeds for every such `y`. -/
theorem c7_negative_codes_wrap (y : List (List ℤ)) (r0 : List ℤ) (rs : List (List ℤ))
    (hy : y = r0 :: rs)
    (hrect : ∀ r ∈ y, r.length = r0.length)
    (hge : ∀ r ∈ y, ∀ j, j < r0.length → -(colMax y j + 1) ≤ r.getD j 0) :
    onehotIndices y
      = InitYResult.ok (y.map (fun r : List ℤ =>
          (List.zip (yLevelsOf y) r).map (fun p : ℤ × ℤ => (p.2 % p.1).toNat))) := by
  subst hy
  have hhead : (r0 :: rs).headD [] = r0 := rfl
  have hLs : yLevelsOf (r0 :: rs)
      = (List.range r0.length).map (fun j => colMax (r0 :: rs) j + 1) := by
    rw [yLevelsOf, hhead]
  have hnonneg : ∀ j, j < r0.length → 0 ≤ colMax (r0 :: rs) j := by
    intro j hj
    have hle := entry_le_colMax r0 rs j r0 (List.mem_cons_self r0 rs)
    have hge0 := hge r0 (List.mem_cons_self r0 rs) j hj
    omega
  have hany : (yLevelsOf (r0 :: rs)).any (fun L => decide (L < 0)) = false := by
    rw [List.any_eq_false]
    intro L hL
    rw [hLs] at hL
    rcases List.mem_map.mp hL with ⟨j, hj, rfl⟩
    have hj' : j < r0.length := List.mem_range.mp hj
    have := hnonneg j hj'
    simp
    omega
  have houter : omap (rowIndices (yLevelsOf (r0 :: rs))) (r0 :: rs)
      = some ((r0 :: rs).map (fun r : List ℤ =>
          (List.zip (yLevelsOf (r0 :: rs)) r).map (fun p : ℤ × ℤ => (p.2 % p.1).toNat))) := by
    refine omap_eq_map _ _ _ ?_
    intro r hr
    rw [rowIndices]
    refine omap_eq_map (fun p : ℤ × ℤ => npIndex p.1 p.2)
      (fun p : ℤ × ℤ => (p.2 % p.1).toNat) _ ?_
    intro p hp
    rcases List.mem_iff_getElem.mp hp with ⟨i, hi, hpi⟩
    have hiL : i < (yLevelsOf (r0 :: rs)).length := by
      rw [List.length_zip] at hi
      omega
    have hir : i < r.length := by
      rw [List.length_zip] at hi
      omega
    have hzip : (List.zip (yLevelsOf (r0 :: rs)) r)[i] = ((yLevelsOf (r0 :: rs))[i], r[i]) :=
      List.getElem_zip
    have hLlen : (yLevelsOf (r0 :: rs)).length = r0.length := by
      rw [hLs, List.length_map, List.length_range]
    have hir0 : i < r0.length := by omega
    have hLq : (yLevelsOf (r0 :: rs))[i]? = some (colMax (r0 :: rs) i + 1) := by
      rw [hLs, List.getElem?_map, List.getElem?_range hir0]
      rfl
    have hL : (yLevelsOf (r0 :: rs))[i] = colMax (r0 :: rs) i + 1 := by
      have h8 := List.getElem?_eq_getElem hiL
      rw [hLq] at h8
      exact (Option.some_inj.mp h8).symm
    have hrgetD : r.getD i 0 = r[i] := List.getD_eq_getElem r 0 hir
    have hlow : -(colMax (r0 :: rs) i + 1) ≤ r[i] := by
      rw [← hrgetD]
      exact hge r hr i hir0
    have hhigh : r[i] ≤ colMax (r0 :: rs) i := by
      rw [← hrgetD]
      exact entry_le_colMax r0 rs i r hr
    rw [← hpi, hzip]
    exact npIndex_emod _ _ (by rw [hL]; omega) (by rw [hL]; omega)
  rw [onehotIndices, hany]
  simp only [Bool.false_eq_true, if_false]
  rw [houter]

theorem c7_witness :
    onehotIndices [[-1], [2]]
      = InitYResult.ok ([[-1], [2]].map (fun r : List ℤ =>
          (List.zip (yLevelsOf [[-1], [2]]) r).map (fun p : ℤ × ℤ => (p.2 % p.1).toNat))) :=
  c7_negative_codes_wrap [[-1], [2]] [-1] [[2]] rfl (by decide) (by decide)

/-- C7 counterexample: `y = [[-1], [2]]` contains a negative code, yet `fit`'s
encoding step raises nothing: the `-1` is silently one-hot encoded as class
`2` of the inferred 3-level column, so the claim that `fit` raises on codes
incompatible with the inferred cardinality is false. -/
theorem c7_counterexample : onehotIndices [[-1], [2]] = InitYResult.ok [[2], [2]] := by
  decide

/-! ### TAO path optimizer (tao.py, `_tao_iter_cart` and `fit`) -/

/-- The sklearn tree arrays that `_tao_iter_cart` reads and mutates in place
(lines 140-145): `children_left`, `children_right`, `feature`, `threshold`,
and the per-node `value` payload. -/
structure TaoState where
  childrenLeft : List ℤ
  childrenRight : List ℤ
  feature : List ℤ
  threshold : List ℚ
  value : List ℚ
deriving DecidableEq

/-- Overwrite one node's feature and threshold entries in place
(`feature[node_id] = ...; threshold[node_id] = ...`, lines 275-276 and
280-281). -/
def withSplit (s : TaoState) (nodeId : ℕ) (bf : ℤ) (bt : ℚ) : TaoState :=
  { s with feature := s.feature.set nodeId bf, threshold := s.threshold.set nodeId bt }

/-- The accept-or-revert step on one internal node (lines 269-284): remember
the old feature/threshold, tentatively overwrite them with the candidate,
re-score the whole tree, and revert both entries exactly when
`old_score >= new_score`; the boolean reports whether the update was counted. -/
def nodeUpdateStep (score : TaoState → ℚ) (s : TaoState) (nodeId : ℕ)
    (bestFeat : ℤ) (bestThreshold : ℚ) : TaoState × Bool :=
  let oldFeat := s.feature.getD nodeId 0
  let oldThreshold := s.threshold.getD nodeId 0
  let s1 := withSplit s nodeId bestFeat bestThreshold
  if score s1 ≤ score s then (withSplit s1 nodeId oldFeat oldThreshold, false)
  else (s1, true)

theorem nodeUpdateStep_eq (score : TaoState → ℚ) (s : TaoState) (nodeId : ℕ)
    (bf : ℤ) (bt : ℚ) :
    nodeUpdateStep score s nodeId bf bt
      = if score (withSplit s nodeId bf bt) ≤ score s
        then (withSplit (withSplit s nodeId bf bt) nodeId
            (s.feature.getD nodeId 0) (s.threshold.getD nodeId 0), false)
        else (withSplit s nodeId bf bt, true) := rfl

theorem set_getD_self {α : Type} : ∀ (l : List α) (i : ℕ) (d : α),
    l.set i (l.getD i d) = l := by
  intro l
  induction l with
  | nil => intro i d; rfl
  | cons x xs ih =>
    intro i d
    cases i with
    | zero => rfl
    | succ n =>
      show x :: xs.set n (xs.getD n d) = x :: xs
      rw [ih]

theorem withSplit_revert (s : TaoState) (nodeId : ℕ) (bf : ℤ) (bt : ℚ) :
    withSplit (withSplit s nodeId bf bt) nodeId
        (s.feature.getD nodeId 0) (s.threshold.getD nodeId 0) = s := by
  obtain ⟨cl, cr, f, th, v⟩ := s
  simp only [withSplit]
  rw [List.set_set, List.set_set, set_getD_self, set_getD_self]

/-- C4: an internal-node update is kept only when the whole-tree score
strictly improves, and a rejected attempt restores the node's feature and
threshold exactly, leaving the tree state identical to before the attempt. -/
theorem c4_accept_or_revert (score : TaoState → ℚ) (s : TaoState) (nodeId : ℕ)
    (bf : ℤ) (bt : ℚ) :
    ((nodeUpdateStep score s nodeId bf bt).2 = true →
        score s < score (nodeUpdateStep score s nodeId bf bt).1)
      ∧ ((nodeUpdateStep score s nodeId bf bt).2 = false →
        (nodeUpdateStep score s nodeId bf bt).1 = s) := by
  rw [nodeUpdateStep_eq]
  by_cases hc : score (withSplit s nodeId bf bt) ≤ score s
  · rw [if_pos hc]
    refine ⟨fun h => by simp at h, fun _ => withSplit_revert s nodeId bf bt⟩
  · rw [if_neg hc]
    refine ⟨fun _ => not_le.mp hc, fun h => by simp at h⟩

/-- A three-node tree state: node 0 splits into leaves 1 and 2. -/
def taoStateW : TaoState :=
  { childrenLeft := [1, -1, -1]
    childrenRight := [2, -1, -1]
    feature := [0, -2, -2]
    threshold := [0, 0, 0]
    value := [0, 0, 0] }

/-- A score that reads node 0's threshold, so the candidate `(1, 5)` strictly
improves it. -/
def scoreByThreshold (s : TaoState) : ℚ := s.threshold.getD 0 0

/-- A constant score, under which every candidate is rejected. -/
def scoreConst (_ : TaoState) : ℚ := 0

theorem c4_witness :
    (scoreByThreshold taoStateW < scoreByThreshold
        (nodeUpdateStep scoreByThreshold taoStateW 0 1 5).1)
      ∧ (nodeUpdateStep scoreConst taoStateW 0 1 5).1 = taoStateW :=
  ⟨(c4_accept_or_revert scoreByThreshold taoStateW 0 1 5).1 (by decide),
   (c4_accept_or_revert scoreConst taoStateW 0 1 5).2 (by decide)⟩

/-! ### Sample weights for the routing surrogate (tao.py lines 229-238) -/

/-- Per-row candidate errors (line 229): for each row, the absolute error if
routed left and the absolute error if routed right,
`np.abs(np.vstack((y - y_left, y - y_right))).T`. -/
def absErrors (yTrue yLeft yRight : List ℚ) : List (ℚ × ℚ) :=
  List.zipWith (fun a p => (|a - p.1|, |a - p.2|)) yTrue (List.zip yLeft yRight)

/-- The sample weights (lines 235-238).  With `weight_errors` the source
evaluates `np.abs(y_node_absolute_errors[:, 1], y_node_absolute_errors[:, 0])`;
the second positional argument of a numpy ufunc is its output buffer, so this
is the absolute value of column 1 alone (the right-routing error), not a
difference of the two columns. -/
def taoSampleWeight (weight_errors : Bool) (errs : List (ℚ × ℚ)) : List ℚ :=
  if weight_errors then errs.map (fun e => |e.2|)
  else List.replicate errs.length 1

/-- Modelled from the spec: "weight each row by the absolute difference
between the two candidate errors". -/
def taoSampleWeightSpec (weight_errors : Bool) (errs : List (ℚ × ℚ)) : List ℚ :=
  if weight_errors then errs.map (fun e => |e.2 - e.1|)
  else List.replicate errs.length 1

/-- C5 evidence: on a row with true value 3, left prediction 1 and right
prediction 0, the candidate errors are (2, 3); the code's weight is 3 (the
absolute right error alone, because the second argument of `np.abs` is an
output buffer), while the claimed weight is the absolute difference 1.  The
uniform branch (`weight_errors=false`) does give weight 1 per row. -/
theorem c5_weight_is_right_error_not_difference :
    absErrors [3] [1] [0] = [(2, 3)]
      ∧ taoSampleWeight true [(2, 3)] = [3]
      ∧ taoSampleWeightSpec true [(2, 3)] = [1]
      ∧ taoSampleWeight false [(2, 3)] = [1]
      ∧ taoSampleWeight true [(2, 3)] ≠ taoSampleWeightSpec true [(2, 3)] := by
  have h1 : absErrors [3] [1] [0] = [(2, 3)] := by
    show [(|(3 : ℚ) - 1|, |(3 : ℚ) - 0|)] = [(2, 3)]
    norm_num
  have h2 : taoSampleWeight true [(2, 3)] = [3] := by
    show [|(3 : ℚ)|] = [3]
    norm_num
  have h3 : taoSampleWeightSpec true [(2, 3)] = [1] := by
    show [|(3 : ℚ) - 2|] = [1]
    norm_num
  have h4 : taoSampleWeight false [(2, 3)] = [1] := rfl
  refine ⟨h1, h2, h3, h4, ?_⟩
  rw [h2, h3]
  intro hcon
  have := List.head_eq_of_cons_eq hcon
  norm_num at this

/-! ### TAO sweeps over a fixed topology (tao.py lines 114-287) -/

/-- The DFS node order computed from the children arrays before a sweep
(lines 148-159): pop from the stack's end, record the node, and push the
children of split nodes (left then right, so the right subtree is visited
first); driven by fuel since the arrays are arbitrary in the model. -/
def dfsOrder (cl cr : List ℤ) : ℕ → List ℕ → List ℕ
  | 0, _ => []
  | _ + 1, [] => []
  | fuel + 1, q :: qs =>
    (q :: qs).getLastD 0 ::
      (if cl.getD ((q :: qs).getLastD 0) 0 = cr.getD ((q :: qs).getLastD 0) 0 then
        dfsOrder cl cr fuel (q :: qs).dropLast
      else
        dfsOrder cl cr fuel ((q :: qs).dropLast
          ++ [(cl.getD ((q :: qs).getLastD 0) 0).toNat,
              (cr.getD ((q :: qs).getLastD 0) 0).toNat]))

/-- One node visit of a sweep (lines 164-284): a leaf (equal children) gets
its value overwritten with the node mean when the task is regression and the
node holds at least `min_leaf_samples_tao` rows; an internal node is skipped
below `min_node_samples_tao` rows, and otherwise undergoes the
accept-or-revert split update with the collaborator's chosen candidate.  The
row count, candidate chooser and leaf mean depend on the current arrays, so
they take the state as an argument. -/
def taoSweepStep (score : TaoState → ℚ) (isReg : Bool) (rowCount : TaoState → ℕ → ℕ)
    (chooseSplit : TaoState → ℕ → ℤ × ℚ) (leafMean : TaoState → ℕ → ℚ)
    (minNode minLeaf : ℕ) (acc : TaoState × ℕ) (nid : ℕ) : TaoState × ℕ :=
  if acc.1.childrenLeft.getD nid 0 = acc.1.childrenRight.getD nid 0 then
    if isReg = true ∧ minLeaf ≤ rowCount acc.1 nid then
      ({ acc.1 with value := acc.1.value.set nid (leafMean acc.1 nid) }, acc.2)
    else acc
  else if rowCount acc.1 nid < minNode then acc
  else
    ((nodeUpdateStep score acc.1 nid (chooseSplit acc.1 nid).1 (chooseSplit acc.1 nid).2).1,
      acc.2 + (if (nodeUpdateStep score acc.1 nid (chooseSplit acc.1 nid).1
          (chooseSplit acc.1 nid).2).2 then 1 else 0))

/-- One full sweep (`_tao_iter_cart`): visit every node in the DFS order
computed from the entry state and return the new state with the number of
accepted updates. -/
def taoSweep (score : TaoState → ℚ) (isReg : Bool) (rowCount : TaoState → ℕ → ℕ)
    (chooseSplit : TaoState → ℕ → ℤ × ℚ) (leafMean : TaoState → ℕ → ℚ)
    (minNode minLeaf fuel : ℕ) (s : TaoState) : TaoState × ℕ :=
  (dfsOrder s.childrenLeft s.childrenRight fuel [0]).foldl
    (taoSweepStep score isReg rowCount chooseSplit leafMean minNode minLeaf) (s, 0)

/-- The sweep loop of `fit` (lines 121-124): run up to `n_iters` sweeps,
stopping after a sweep that accepted no update. -/
def taoFit (score : TaoState → ℚ) (isReg : Bool) (rowCount : TaoState → ℕ → ℕ)
    (chooseSplit : TaoState → ℕ → ℤ × ℚ) (leafMean : TaoState → ℕ → ℚ)
    (minNode minLeaf fuel : ℕ) : ℕ → TaoState → TaoState
  | 0, s => s
  | iters + 1, s =>
    let r := taoSweep score isReg rowCount chooseSplit leafMean minNode minLeaf fuel s
    if r.2 = 0 then r.1
    else taoFit score isReg rowCount chooseSplit leafMean minNode minLeaf fuel iters r.1

/-- The frame the optimizer preserves: children arrays unchanged (hence node
count and topology), array lengths unchanged, and the value entries of split
(internal) nodes unchanged. -/
def topologyPreserved (s s' : TaoState) : Prop :=
  s'.childrenLeft = s.childrenLeft ∧ s'.childrenRight = s.childrenRight
    ∧ s'.feature.length = s.feature.length
    ∧ s'.threshold.length = s.threshold.length
    ∧ s'.value.length = s.value.length
    ∧ ∀ i, s.childrenLeft.getD i 0 ≠ s.childrenRight.getD i 0 →
        s'.value.getD i 0 = s.value.getD i 0

theorem topologyPreserved_refl (s : TaoState) : topologyPreserved s s :=
  ⟨rfl, rfl, rfl, rfl, rfl, fun _ _ => rfl⟩

theorem topologyPreserved_trans (s1 s2 s3 : TaoState)
    (h12 : topologyPreserved s1 s2) (h23 : topologyPreserved s2 s3) :
    topologyPreserved s1 s3 := by
  obtain ⟨a1, b1, c1, d1, e1, f1⟩ := h12
  obtain ⟨a2, b2, c2, d2, e2, f2⟩ := h23
  refine ⟨a2.trans a1, b2.trans b1, c2.trans c1, d2.trans d1, e2.trans e1, ?_⟩
  intro i hi
  have hi2 : s2.childrenLeft.getD i 0 ≠ s2.childrenRight.getD i 0 := by
    rw [a1, b1]
    exact hi
  exact (f2 i hi2).trans (f1 i hi)

theorem foldl_inv {α β : Type} (P : α → Prop) (f : α → β → α) :
    ∀ (l : List β) (a : α), P a → (∀ x y, P x → P (f x y)) → P (l.foldl f a) := by
  intro l
  induction l with
  | nil => intro a ha _; exact ha
  | cons b bs ih =>
    intro a ha hstep
    exact ih (f a b) (hstep a b ha) hstep

theorem nodeUpdateStep_frame (score : TaoState → ℚ) (s : TaoState) (nodeId : ℕ)
    (bf : ℤ) (bt : ℚ) :
    (nodeUpdateStep score s nodeId bf bt).1.childrenLeft = s.childrenLeft
      ∧ (nodeUpdateStep score s nodeId bf bt).1.childrenRight = s.childrenRight
      ∧ (nodeUpdateStep score s nodeId bf bt).1.feature.length = s.feature.length
      ∧ (nodeUpdateStep score s nodeId bf bt).1.threshold.length = s.threshold.length
      ∧ (nodeUpdateStep score s nodeId bf bt).1.value = s.value := by
  rw [nodeUpdateStep_eq]
  by_cases hc : score (withSplit s nodeId bf bt) ≤ score s
  · rw [if_pos hc]
    refine ⟨rfl, rfl, ?_, ?_, rfl⟩ <;> simp [withSplit, List.length_set]
  · rw [if_neg hc]
    refine ⟨rfl, rfl, ?_, ?_, rfl⟩ <;> simp [withSplit, List.length_set]

theorem taoSweepStep_preserves (score : TaoState → ℚ) (isReg : Bool)
    (rowCount : TaoState → ℕ → ℕ) (chooseSplit : TaoState → ℕ → ℤ × ℚ)
    (leafMean : TaoState → ℕ → ℚ) (minNode minLeaf : ℕ) (s0 : TaoState)
    (acc : TaoState × ℕ) (nid : ℕ) (hacc : topologyPreserved s0 acc.1) :
    topologyPreserved s0
      (taoSweepStep score isReg rowCount chooseSplit leafMean minNode minLeaf acc nid).1 := by
  obtain ⟨hcl, hcr, hf, ht, hv, hval⟩ := hacc
  rw [taoSweepStep]
  by_cases hleaf : acc.1.childrenLeft.getD nid 0 = acc.1.childrenRight.getD nid 0
  · rw [if_pos hleaf]
    by_cases hreg : isReg = true ∧ minLeaf ≤ rowCount acc.1 nid
    · rw [if_pos hreg]
      refine ⟨hcl, hcr, hf, ht, ?_, ?_⟩
      · show (acc.1.value.set nid (leafMean acc.1 nid)).length = s0.value.length
        rw [List.length_set]
        exact hv
      · intro i hi
        have hne : nid ≠ i := by
          intro heq
          subst heq
          rw [hcl, hcr] at hleaf
          exact hi hleaf
        show (acc.1.value.set nid (leafMean acc.1 nid)).getD i 0 = s0.value.getD i 0
        rw [getD_set_ne acc.1.value nid i _ 0 hne]
        exact hval i hi
    · rw [if_neg hreg]
      exact ⟨hcl, hcr, hf, ht, hv, hval⟩
  · rw [if_neg hleaf]
    by_cases hmin : rowCount acc.1 nid < minNode
    · rw [if_pos hmin]
      exact ⟨hcl, hcr, hf, ht, hv, hval⟩
    · rw [if_neg hmin]
      show topologyPreserved s0
        (nodeUpdateStep score acc.1 nid (chooseSplit acc.1 nid).1 (chooseSplit acc.1 nid).2).1
      obtain ⟨g1, g2, g3, g4, g5⟩ := nodeUpdateStep_frame score acc.1 nid
        (chooseSplit acc.1 nid).1 (chooseSplit acc.1 nid).2
      refine ⟨g1.trans hcl, g2.trans hcr, g3.trans hf, g4.trans ht, ?_, ?_⟩
      · rw [g5]
        exact hv
      · intro i hi
        rw [g5]
        exact hval i hi

theorem taoSweep_preserves (score : TaoState → ℚ) (isReg : Bool)
    (rowCount : TaoState → ℕ → ℕ) (chooseSplit : TaoState → ℕ → ℤ × ℚ)
    (leafMean : TaoState → ℕ → ℚ) (minNode minLeaf fuel : ℕ) (s : TaoState) :
    topologyPreserved s
      (taoSweep score isReg rowCount chooseSplit leafMean minNode minLeaf fuel s).1 := by
  rw [taoSweep]
  exact foldl_inv (fun acc : TaoState × ℕ => topologyPreserved s acc.1)
    (taoSweepStep score isReg rowCount chooseSplit leafMean minNode minLeaf)
    (dfsOrder s.childrenLeft s.childrenRight fuel [0]) (s, 0)
    (topologyPreserved_refl s)
    (fun acc nid h => taoSweepStep_preserves score isReg rowCount chooseSplit leafMean
      minNode minLeaf s acc nid h)

theorem taoFit_preserves (score : TaoState → ℚ) (isReg : Bool)
    (rowCount : TaoState → ℕ → ℕ) (chooseSplit : TaoState → ℕ → ℤ × ℚ)
    (leafMean : TaoState → ℕ → ℚ) (minNode minLeaf fuel : ℕ) :
    ∀ (iters : ℕ) (s : TaoState),
      topologyPreserved s
        (taoFit score isReg rowCount chooseSplit leafMean minNode minLeaf fuel iters s) := by
  intro iters
  induction iters with
  | zero => intro s; exact topologyPreserved_refl s
  | succ k ih =>
    intro s
    show topologyPreserved s
      (if (taoSweep score isReg rowCount chooseSplit leafMean minNode minLeaf fuel s).2 = 0
       then (taoSweep score isReg rowCount chooseSplit leafMean minNode minLeaf fuel s).1
       else taoFit score isReg rowCount chooseSplit leafMean minNode minLeaf fuel k
         (taoSweep score isReg rowCount chooseSplit leafMean minNode minLeaf fuel s).1)
    by_cases h : (taoSweep score isReg rowCount chooseSplit leafMean minNode minLeaf fuel s).2 = 0
    · rw [if_pos h]
      exact taoSweep_preserves score isReg rowCount chooseSplit leafMean minNode minLeaf fuel s
    · rw [if_neg h]
      exact topologyPreserved_trans s _ _
        (taoSweep_preserves score isReg rowCount chooseSplit leafMean minNode minLeaf fuel s)
        (ih _)

/-- C9: throughout the sweep loop the tree topology is invariant: the
children arrays are exactly unchanged (hence node count and parent/child ids),
the feature/threshold/value arrays keep their lengths, and the value entries
of internal (split) nodes are untouched; only feature, threshold and leaf
value entries can change. -/
theorem c9_topology_invariant (score : TaoState → ℚ) (isReg : Bool)
    (rowCount : TaoState → ℕ → ℕ) (chooseSplit : TaoState → ℕ → ℤ × ℚ)
    (leafMean : TaoState → ℕ → ℚ) (minNode minLeaf fuel iters : ℕ) (s : TaoState) :
    topologyPreserved s
      (taoFit score isReg rowCount chooseSplit leafMean minNode minLeaf fuel iters s) :=
  taoFit_preserves score isReg rowCount chooseSplit leafMean minNode minLeaf fuel iters s

/-- A three-node regression tree state for exercising the sweep loop. -/
def taoStateW9 : TaoState :=
  { childrenLeft := [1, -1, -1]
    childrenRight := [2, -1, -1]
    feature := [0, -2, -2]
    threshold := [0, 0, 0]
    value := [5, 6, 7] }

/-- A score function for the C9 witness. -/
def scoreZero (_ : TaoState) : ℚ := 0

theorem c9_witness :
    (taoFit scoreZero true (fun _ _ => 5) (fun _ _ => (1, 2)) (fun _ _ => 9) 3 2 10 2
        taoStateW9).value.getD 0 0 = taoStateW9.value.getD 0 0 :=
  ((c9_topology_invariant scoreZero true (fun _ _ => 5) (fun _ _ => (1, 2)) (fun _ _ => 9)
      3 2 10 2 taoStateW9).2.2.2.2.2) 0 (by decide)
